import Mathlib

/-!
# Verification of the claripy wrapped strided-interval (SI) domain

This file is a shallow embedding of `src/claripy/vsa/strided_interval.py`:
the signedness-agnostic wrapped strided-interval abstract domain for
fixed-width machine integers.  Machine integers are modelled as `Nat`
with explicit `% 2^w` masking (and `Int` where the Python source computes
with possibly negative intermediate values); fallible code is modelled
with `Except`.

The embedding models the non-reversed, initialized kernel: the `name`,
`_reversed` and `uninitialized` attributes of the Python class are
orthogonal bookkeeping that the verified operations neither read nor
branch on (for non-reversed operands), so they are omitted from the
state.  Every definition follows the corresponding Python method; line
numbers in comments refer to `strided_interval.py`.
-/

namespace VSA

/-- The strided-interval datum: `StridedInterval.__init__` stores
`bits`, `stride`, unsigned `lower_bound`/`upper_bound`, and the
`_is_bottom` flag (lines 263-299). -/
structure SI where
  bits : Nat
  stride : Nat
  lb : Nat
  ub : Nat
  bottom : Bool
deriving DecidableEq, Repr

/-- `StridedInterval.max_int(k) = 2**k - 1` (lines 1140-1143). -/
def maxInt (k : Nat) : Nat := 2 ^ k - 1

/-- `_modular_add(a, b, bits)` (lines 1082-1084). -/
def modAdd (a b w : Nat) : Nat := (a + b) % 2 ^ w

/-- `_modular_sub(a, b, bits)` (lines 1086-1088), for `b ≤ a + 2^w`
(callers pass values below `2^w`). -/
def modSub (a b w : Nat) : Nat := (a + 2 ^ w - b % 2 ^ w) % 2 ^ w

/-- `_wrapped_cardinality(x, y, bits)` (lines 1263-1276): the number of
integers walked from `x` to `y` on the `2^w` circle. -/
def wcard (x y w : Nat) : Nat :=
  if x = (y + 1) % 2 ^ w then 2 ^ w else (y + 2 ^ w + 1 - x % 2 ^ w) % 2 ^ w

/-- Mask a Python integer (possibly negative) to `w` unsigned bits, as
`v & (2**w - 1)` does on arbitrary-precision two's-complement ints. -/
def imask (w : Nat) (v : Int) : Nat := (v % ((2 : Int) ^ w)).toNat

/-- `_unsigned_to_signed(v, bits)` (lines 1311-1322). -/
def toSigned (v w : Nat) : Int :=
  if v % 2 ^ w &&& 2 ^ (w - 1) = 0 then (v : Int) else (v : Int) - 2 ^ w

/-- `StridedInterval.normalize` (lines 323-341) restricted to the
non-reversed kernel: an empty SI is returned unchanged; a singleton gets
stride 0; `_normalize_top` (lines 382-387) rewrites a stride-1 interval
whose bounds wrap all the way around into the canonical TOP. -/
def SI.norm (s : SI) : SI :=
  if s.bottom then s
  else
    let s := if s.lb = s.ub then { s with stride := 0 } else s
    if s.stride = 1 ∧ s.lb = (s.ub + 1) % 2 ^ s.bits then
      { s with lb := 0, ub := 2 ^ s.bits - 1 }
    else s

/-- The `StridedInterval(bits=w, stride=st, lower_bound=lb, upper_bound=ub)`
constructor: bounds are masked to `w` bits (lines 295-297) and the result
is normalized (line 299). -/
def mkSI (w st lb ub : Nat) : SI := SI.norm ⟨w, st, lb % 2 ^ w, ub % 2 ^ w, false⟩

/-- The constructor applied to Python ints that may be negative. -/
def mkSIi (w st : Nat) (lb ub : Int) : SI := SI.norm ⟨w, st, imask w lb, imask w ub, false⟩

/-- `StridedInterval.empty(bits)` (lines 1259-1261): the bottom element.
The constructor defaults give `stride=1, lb=0, ub=2^w-1` (lines 270-272),
and `normalize` returns early on an empty SI, so those defaults survive. -/
def SI.empty (w : Nat) : SI := ⟨w, 1, 0, 2 ^ w - 1, true⟩

/-- `StridedInterval.top(bits)` (lines 1245-1257). -/
def SI.top (w : Nat) : SI := mkSI w 1 0 (2 ^ w - 1)

/-- `is_top` (lines 1052-1060): note it reads only `stride`/`lb`/`ub`
and does not consult the bottom flag. -/
def SI.isTop (s : SI) : Bool := s.stride = 1 ∧ s.lb = (s.ub + 1) % 2 ^ s.bits

/-- `is_bottom` / `is_empty` (lines 1044-1068). -/
def SI.isBottom (s : SI) : Bool := s.bottom

/-- `is_integer` (lines 1070-1076). -/
def SI.isInteger (s : SI) : Bool := s.lb = s.ub

/-- `cardinality` (lines 947-954). -/
def SI.card (s : SI) : Nat :=
  if s.bottom then 0
  else if s.lb = s.ub then 1
  else (modSub s.ub s.lb s.bits + s.stride) / s.stride

/-- `_wrapped_member(v)` (lines 1592-1602): `lex_lte(v - lb, ub - lb, bits)`,
where `_lex_lte` (lines 1566-1577) compares after masking to `w` bits. -/
def SI.mem (s : SI) (v : Nat) : Bool :=
  modSub v s.lb s.bits ≤ modSub s.ub s.lb s.bits

/-- `complement` (lines 956-987).  `dist` is computed as a Python int so
that the (unreachable) `dist < 0` branch is represented faithfully. -/
def SI.complement (s : SI) : SI :=
  if s.bottom then SI.top s.bits
  else if s.isTop then SI.empty s.bits
  else
    let y1 := (s.ub + 1) % 2 ^ s.bits
    let x1 := modSub s.lb 1 s.bits
    let dist : Int := (wcard y1 x1 s.bits : Int) - 1
    let stride' : Nat :=
      if dist < 0 then 0
      else if s.stride = 0 then 1
      else Nat.gcd s.stride dist.toNat
    mkSI s.bits stride' y1 x1

/-- `_wrapped_lte(a, b)` (lines 1604-1630), the poset order `a ⊑ b`. -/
def SI.wrappedLte (a b : SI) : Bool :=
  if a.bottom then true
  else if a.isTop ∧ b.isTop then true
  else if a.isTop then false
  else if b.isTop then true
  else
    (b.mem a.lb ∧ b.mem a.ub) ∧
      ((b.lb = a.lb ∧ b.ub = a.ub) ∨ ¬ a.mem b.lb ∨ ¬ a.mem b.ub)

/-- `_gap(src_interval, tar_interval)` (lines 1222-1243). -/
def SI.gap (s t : SI) : SI :=
  if ¬ t.mem s.ub ∧ ¬ s.mem t.lb then (mkSI s.bits 1 t.lb s.ub).complement
  else SI.empty s.bits

/-- `_bigger(interval1, interval2)` (lines 2254-2265). -/
def SI.bigger (i1 i2 : SI) : SI := if i2.card > i1.card then i2 else i1

/-- `_interval_extend(s, t)` (lines 2149-2193).  The stride candidates are
computed as Python ints; `_wrapped_cardinality` never returns 0, so the
`new_stride == -1` repair branch (lines 2190-2191) is unreachable but kept. -/
def SI.intervalExtend (s t : SI) : SI :=
  let w := s.bits
  if s.wrappedLte t then t
  else if t.wrappedLte s then s
  else if s.complement.wrappedLte t then SI.top w
  else
    let dAC : Int := (wcard s.lb t.lb w : Int) - 1
    let dBC : Int := (wcard s.ub t.lb w : Int) - 1
    let ns : Int :=
      if s.lb = s.ub ∧ t.lb = t.ub then dAC
      else if s.lb = s.ub then Int.gcd dAC t.stride
      else if t.lb = t.ub then Int.gcd dBC s.stride
      else Int.gcd (Nat.gcd s.stride t.stride) dAC
    let ns := if ns = -1 then 0 else ns
    mkSIi w ns.toNat s.lb t.ub

/-- Insert into a list sorted by ascending `lb`, keeping earlier elements
first on ties (Python's `sorted` is stable). -/
def insertByLb (x : SI) : List SI → List SI
  | [] => [x]
  | y :: t => if x.lb ≤ y.lb then x :: y :: t else y :: insertByLb x t

/-- Stable sort by ascending lower bound, as `sorted(key=lambda x: x.lower_bound)`. -/
def sortByLb : List SI → List SI
  | [] => []
  | x :: t => insertByLb x (sortByLb t)

/-- The body of `_least_upper_bound` (lines 2282-2314) for two or more
intervals: `w` is the width of the first interval of the original list
and `strideSeed` its stride (`intervals_to_join[0]._stride`).  The final
stride fix-up mirrors the source exactly: the `is_integer` assignment is
overwritten by the `is_top`/else branch that follows it. -/
def SI.lubCore (l : List SI) (w strideSeed : Nat) : SI :=
  let sorted := sortByLb l
  let f1 := sorted.foldl
    (fun f s => if s.isTop ∨ s.ub % 2 ^ w ≤ s.lb % 2 ^ w then f.intervalExtend s else f)
    (SI.empty w)
  let gf := sorted.foldl
    (fun (p : SI × SI) s => (SI.bigger p.1 (SI.gap p.2 s), p.2.intervalExtend s))
    (SI.empty w, f1)
  let si := (SI.bigger gf.1 gf.2.complement).complement
  let si := if si.lb = si.ub then { si with stride := 0 } else si
  if si.isTop then { si with stride := 1 }
  else { si with stride := l.foldl (fun acc i => Nat.gcd acc i.stride) strideSeed }

/-- `_least_upper_bound(intervals_to_join)` (lines 2268-2314): a single
interval is returned as is (the `copy` drops only the name). -/
def SI.lub : List SI → SI
  | [] => SI.empty 0
  | [x] => x
  | l@(x :: _ :: _) => SI.lubCore l x.bits x.stride

/-- `union` with `allow_dsis = False` (lines 2234-2243): it returns
`_least_upper_bound([self, b])`. -/
def SI.union (a b : SI) : SI := SI.lub [a, b]

/-- `_ssplit` (lines 389-412): split at the south pole.  For a wrapping
SI the boundary is snapped to the stride grid; a stride-0 wrapping SI
would raise `ZeroDivisionError` in Python and is excluded by `Valid`. -/
def SI.ssplit (s : SI) : List SI :=
  if s.ub < s.lb then
    let spr := 2 ^ s.bits - 1
    let aUb := spr - (spr - s.lb) % s.stride
    let a := mkSI s.bits s.stride s.lb aUb
    let bLb := (aUb + s.stride) % 2 ^ s.bits
    let b := mkSI s.bits s.stride bLb s.ub
    [a, b]
  else [s]

/-- The straddling detection of `_nsplit` (lines 424-435): the north
pole lies between `npl = 2^(w-1)-1` and `npr = 2^(w-1)`. -/
def nsplitStraddles (s : SI) : Bool :=
  if 2 ^ (s.bits - 1) ≤ s.ub then
    (if s.ub < s.lb then true else decide (s.lb ≤ 2 ^ (s.bits - 1) - 1))
  else decide (s.ub < s.lb ∧ s.lb ≤ 2 ^ (s.bits - 1) - 1)

/-- `_nsplit` (lines 414-447): split at the north pole.  The snapped
boundary `a_upper_bound` is computed with Python's sign-of-divisor `%`,
so the arithmetic is done in `Int`. -/
def SI.nsplit (s : SI) : List SI :=
  if nsplitStraddles s then
    let npl := 2 ^ (s.bits - 1) - 1
    let aUb : Int := (npl : Int) - ((npl : Int) - s.lb) % (s.stride : Int)
    let a := mkSIi s.bits s.stride s.lb aUb
    let b := mkSIi s.bits s.stride (aUb + s.stride) s.ub
    [a, b]
  else [s]

/-- `_psplit` (lines 449-462). -/
def SI.psplit (s : SI) : List SI := (s.nsplit).flatMap SI.ssplit

/-- `_signed_bounds` (lines 464-496): one or two `(lb, ub)` pairs of
Python ints.  With two pieces the first (left-hemisphere) pair is used
raw and the second is converted to negative numbers. -/
def SI.signedBounds (s : SI) : List (Int × Int) :=
  match s.nsplit with
  | [p] => [(toSigned p.lb s.bits, toSigned p.ub s.bits)]
  | [p, q] => [((p.lb : Int), (p.ub : Int)),
               (toSigned q.lb s.bits, toSigned q.ub s.bits)]
  | _ => []  -- nsplit returns one or two pieces; Python raises otherwise

/-- `_unsigned_bounds` (lines 498-521). -/
def SI.unsignedBounds (s : SI) : List (Nat × Nat) :=
  match s.ssplit with
  | [p] => [(p.lb, p.ub)]
  | [p, q] => [(p.lb, p.ub), (q.lb, q.ub)]
  | _ => []  -- ssplit returns one or two pieces; Python raises otherwise

/-- The three-valued `BoolResult`: `TrueResult / FalseResult / MaybeResult`. -/
inductive Tri where
  | t | f | m
deriving DecidableEq, Repr

/-- Negation on the three-valued lattice. -/
def triNot : Tri → Tri
  | .t => .f
  | .f => .t
  | .m => .m

/-- The aggregation used by every comparison (e.g. lines 566-571):
all results `True` gives `True`, all `False` gives `False`, else `Maybe`. -/
def aggregate (l : List Tri) : Tri :=
  if l.all (· = .t) then .t
  else if l.all (· = .f) then .f
  else .m

/-- One `SLT` comparison of bound pairs (lines 557-564). -/
def sltPair (p q : Int × Int) : Tri :=
  if p.2 < q.1 then .t else if q.2 ≤ p.1 then .f else .m

/-- One `SGE` comparison of bound pairs (lines 642-649). -/
def sgePair (p q : Int × Int) : Tri :=
  if q.2 ≤ p.1 then .t else if p.2 < q.1 then .f else .m

/-- One `ULT` comparison of bound pairs (lines 671-678). -/
def ultPair (p q : Nat × Nat) : Tri :=
  if p.2 < q.1 then .t else if q.2 ≤ p.1 then .f else .m

/-- One `ULE` comparison of bound pairs (lines 700-707). -/
def ulePair (p q : Nat × Nat) : Tri :=
  if p.2 ≤ q.1 then .t else if q.2 < p.1 then .f else .m

/-- `SLT` (lines 544-571). -/
def SI.SLT (x y : SI) : Tri :=
  aggregate ((x.signedBounds).flatMap fun p => (y.signedBounds).map fun q => sltPair p q)

/-- `SGE` (lines 630-656). -/
def SI.SGE (x y : SI) : Tri :=
  aggregate ((x.signedBounds).flatMap fun p => (y.signedBounds).map fun q => sgePair p q)

/-- `ULT` (lines 658-685). -/
def SI.ULT (x y : SI) : Tri :=
  aggregate ((x.unsignedBounds).flatMap fun p => (y.unsignedBounds).map fun q => ultPair p q)

/-- `ULE` (lines 687-714). -/
def SI.ULE (x y : SI) : Tri :=
  aggregate ((x.unsignedBounds).flatMap fun p => (y.unsignedBounds).map fun q => ulePair p q)

/-- The cardinality used by `_wrappedoverflow_add` (lines 1324-1346):
a singleton zero operand counts as 0, otherwise `_wrapped_cardinality`. -/
def cardZ (s : SI) : Nat :=
  if s.lb = s.ub ∧ s.lb = 0 then 0 else wcard s.lb s.ub s.bits

/-- `_wrappedoverflow_add(a, b)` (lines 1324-1346). -/
def overflowAdd (a b : SI) : Bool := maxInt a.bits < cardZ a + cardZ b

/-- `add` (lines 1646-1674) for equal-width, non-reversed operands.  On
overflow it returns `top(self.bits)`; otherwise the modular sums of the
bounds with the gcd of the strides, normalized (constructor plus the
trailing `.normalize()`). -/
def SI.add (a b : SI) : SI :=
  if overflowAdd a b then SI.top a.bits
  else (mkSI (max a.bits b.bits) (Nat.gcd a.stride b.stride)
    ((a.lb + b.lb) % 2 ^ max a.bits b.bits)
    ((a.ub + b.ub) % 2 ^ max a.bits b.bits)).norm

/-- `rshift` with an `int` shift amount and default `preserve_sign`
(lines 1910-1949): `_pre_shift` maps an int `k` to the range `(k, k)`,
so the loop shifts both bounds by exactly `k` and records
`lower_bound_shifted = upper_bound_shifted = k`. -/
def SI.rshiftInt (s : SI) (k : Nat) (preserveSign : Bool) : SI :=
  let newLb := s.lb >>> k
  let newUb := s.ub >>> k
  let mask := 2 ^ (s.bits - 1)
  let bitsSign := (2 ^ k - 1) <<< (s.bits - k)
  let newLb := if preserveSign ∧ 0 < s.lb &&& mask then newLb ||| bitsSign else newLb
  let newUb := if preserveSign ∧ 0 < s.ub &&& mask then newUb ||| bitsSign else newUb
  (mkSI s.bits (max (s.stride >>> k) 1) newLb newUb).norm

/-- `zero_extend(new_length)` (lines 2136-2147): a copy with wider `bits`
and otherwise identical fields (no re-normalization). -/
def SI.zeroExtend (s : SI) (n : Nat) : SI := { s with bits := n }

/-- The concretization of an SI per the data model (spec section 3) and
`eval` (lines 343-373): empty set for bottom, else the `cardinality`
values walked from `lb` by `stride` on the `2^bits` circle. -/
def SI.concretize (s : SI) : List Nat :=
  (List.range s.card).map fun k => (s.lb + k * s.stride) % 2 ^ s.bits

/-- `_wrapped_unsigned_div(a, b)` (lines 1474-1506). -/
def wudiv (a b : SI) : SI :=
  let bits := max a.bits b.bits
  if b.lb = 0 ∧ b.ub = 0 then SI.empty bits
  else
    let dlb := if b.lb = 0 then b.lb + 1 else b.lb
    let dub := if b.ub = 0 then 2 ^ bits - 1 else b.ub
    mkSI bits 1 (a.lb / dub) (a.ub / dlb)

/-- `_wrapped_signed_div(a, b)` (lines 1508-1560).  Python's `/` on ints
is floor division, i.e. `Int.fdiv`.  Note the `- / -` case divides by the
raw bounds of `b`, not the zero-adjusted `divisor_lb/ub`. -/
def wsdiv (a b : SI) : SI :=
  let bits := max a.bits b.bits
  if b.lb = 0 ∧ b.ub = 0 then SI.empty bits
  else
    let dlb : Nat := if b.lb = 0 then 1 else b.lb
    let dub : Nat := if b.ub = 0 then 2 ^ bits - 1 else b.ub
    let dividendPos := a.lb % 2 ^ bits &&& 2 ^ (bits - 1) = 0
    let divisorPos := b.lb % 2 ^ bits &&& 2 ^ (bits - 1) = 0
    let bounds : Int × Int :=
      if dividendPos ∧ divisorPos then
        (Int.fdiv a.lb dub, Int.fdiv a.ub dlb)
      else if dividendPos then
        (Int.fdiv a.ub (toSigned dub bits), Int.fdiv a.lb (toSigned dlb bits))
      else if divisorPos then
        (Int.fdiv (toSigned a.lb bits) dlb, Int.fdiv (toSigned a.ub bits) dub)
      else
        (Int.fdiv (toSigned a.ub bits) (toSigned b.lb bits),
         Int.fdiv (toSigned a.lb bits) (toSigned b.ub bits))
    mkSIi bits 1 bounds.1 bounds.2

/-- `udiv` (lines 1763-1782): south-pole split both operands, divide each
piece pair, and join.  The Python code collects the pieces in a `set`
whose iteration order is unspecified; they are modelled in loop order
without deduplication (deduplication only drops equal elements, which
does not change the joins proved about below). -/
def SI.udiv (a o : SI) : SI :=
  SI.lub ((a.ssplit).flatMap fun dv => (o.ssplit).map fun ds => wudiv dv ds)

/-- `sdiv` (lines 1742-1761), analogously with `_psplit`. -/
def SI.sdiv (a o : SI) : SI :=
  SI.lub ((a.psplit).flatMap fun dv => (o.psplit).map fun ds => wsdiv dv ds)

/-- The loop of `WarrenMethods.min_xor` (lines 203-225): scan the mask
from bit `w-1` down to bit 0, possibly raising `a` or `c`; unlike
`min_or`, there is no `break`.  `(x | m) & -m` clears the bits below `m`. -/
def minXorGo (b d : Nat) : Nat → Nat → Nat → Nat × Nat
  | 0, a, c => (a, c)
  | k + 1, a, c =>
    let m := 2 ^ k
    if a &&& m = 0 ∧ c &&& m ≠ 0 then
      let temp := ((a ||| m) >>> k) <<< k
      minXorGo b d k (if temp ≤ b then temp else a) c
    else if a &&& m ≠ 0 ∧ c &&& m = 0 then
      let temp := ((c ||| m) >>> k) <<< k
      minXorGo b d k a (if temp ≤ d then temp else c)
    else minXorGo b d k a c

/-- `WarrenMethods.min_xor(a, b, c, d, w)` (lines 203-225). -/
def warrenMinXor (a b c d w : Nat) : Nat :=
  let ac := minXorGo b d w a c
  ac.1 ^^^ ac.2

/-- The loop of `WarrenMethods.max_xor` (lines 227-249): when bit `k` is
set in both `b` and `d`, try lowering `b`, else try lowering `d`. -/
def maxXorGo (a c : Nat) : Nat → Nat → Nat → Nat × Nat
  | 0, b, d => (b, d)
  | k + 1, b, d =>
    let m := 2 ^ k
    if b &&& m ≠ 0 ∧ d &&& m ≠ 0 then
      let t1 := (b - m) ||| (m - 1)
      if a ≤ t1 then maxXorGo a c k t1 d
      else
        let t2 := (d - m) ||| (m - 1)
        if c ≤ t2 then maxXorGo a c k b t2
        else maxXorGo a c k b d
    else maxXorGo a c k b d

/-- `WarrenMethods.max_xor(a, b, c, d, w)` (lines 227-249). -/
def warrenMaxXor (a b c d w : Nat) : Nat :=
  let bd := maxXorGo a c w b d
  bd.1 ^^^ bd.2

/-- `bitwise_xor` (lines 1851-1872).  The method assigns `new_stride = 1`
but the `StridedInterval(...)` call in the loop body references the
undefined name `mew_stride`, so every iteration raises `NameError` at
run time; the fallible computation is modelled with `Except`. -/
def SI.bitwiseXor (s t : SI) : Except String SI := do
  let pieces ← (s.ssplit).mapM fun u =>
    (t.ssplit).mapM fun v =>
      let w := u.bits
      let lowBound := warrenMinXor u.lb u.ub v.lb v.ub w
      let upperBound := warrenMaxXor u.lb u.ub v.lb v.ub w
      let _ := (lowBound, upperBound)
      (Except.error "NameError: global name mew_stride is not defined" : Except String SI)
  pure (SI.lub pieces.flatten)

/-- Well-formedness of an SI as maintained by the data-model invariants:
positive width, bounds stored masked (spec section 3 invariant 1), the
singleton canonical form in both directions (invariant 2 plus the
stride-0-implies-singleton reading used by the splitting code), and the
stride discipline (spec section 8 property 12) on non-singletons. -/
def Valid (s : SI) : Prop :=
  0 < s.bits ∧ s.lb < 2 ^ s.bits ∧ s.ub < 2 ^ s.bits ∧
    (s.stride = 0 ↔ s.lb = s.ub) ∧
    (0 < s.stride → modSub s.ub s.lb s.bits % s.stride = 0)

instance (s : SI) : Decidable (Valid s) := by
  unfold Valid; infer_instance

/-- The stride discipline of spec section 8 property 12 for one SI. -/
def Disciplined (s : SI) : Prop :=
  0 < s.stride → modSub s.ub s.lb s.bits % s.stride = 0

instance (s : SI) : Decidable (Disciplined s) := by
  unfold Disciplined; infer_instance

end VSA

namespace VSA

/-! ## Spec-side definitions

These follow the wording of the (possibly amended) claims, to be compared
with the source-derived operations above. -/

/-- The claim's description of `complement` for a non-bottom, non-TOP SI:
bounds `[(ub+1) mod 2^w, (lb-1) mod 2^w]`, stride
`gcd(old_stride, wrapped_cardinality(ub+1, lb-1, w) - 1)`, with stride 0
for a singleton result and stride 1 when the old stride was 0. -/
def complementSpec (x : SI) : SI :=
  ⟨x.bits,
   if (x.ub + 1) % 2 ^ x.bits = modSub x.lb 1 x.bits then 0
   else if x.stride = 0 then 1
   else Nat.gcd x.stride
     (wcard ((x.ub + 1) % 2 ^ x.bits) (modSub x.lb 1 x.bits) x.bits - 1),
   (x.ub + 1) % 2 ^ x.bits,
   modSub x.lb 1 x.bits,
   false⟩

/-- The amended claim's description of `add`: TOP of the operand width
when the sum of the wrapped cardinalities, counting a singleton zero
operand as 0, exceeds `max_int(w)`; otherwise the SI with the modular
sums of the bounds and the gcd of the strides. -/
def addSpec (a b : SI) : SI :=
  if overflowAdd a b then SI.top a.bits
  else ⟨max a.bits b.bits, Nat.gcd a.stride b.stride,
    (a.lb + b.lb) % 2 ^ max a.bits b.bits,
    (a.ub + b.ub) % 2 ^ max a.bits b.bits, false⟩

/-! ## Helper lemmas -/

theorem two_pow_pos (w : Nat) : 0 < 2 ^ w := Nat.pos_pow_of_pos w (by norm_num)

theorem one_le_two_pow {w : Nat} : 1 ≤ 2 ^ w := two_pow_pos w

/-- `modSub` on masked operands, with the modulus unfolded into cases. -/
theorem modSub_spec {a b w : Nat} (ha : a < 2 ^ w) (hb : b < 2 ^ w) :
    modSub a b w = if b ≤ a then a - b else a + 2 ^ w - b := by
  unfold modSub
  rw [Nat.mod_eq_of_lt hb]
  rcases le_or_lt b a with h | h
  · rw [if_pos h]
    have : a + 2 ^ w - b = (a - b) + 2 ^ w := by omega
    rw [this, Nat.add_mod_right, Nat.mod_eq_of_lt (by omega)]
  · rw [if_neg (by omega)]
    exact Nat.mod_eq_of_lt (by omega)

theorem modSub_lt (a b w : Nat) : modSub a b w < 2 ^ w :=
  Nat.mod_lt _ (two_pow_pos w)

theorem modSub_eq_zero_iff {a b w : Nat} (ha : a < 2 ^ w) (hb : b < 2 ^ w) :
    modSub a b w = 0 ↔ a = b := by
  rw [modSub_spec ha hb]; split <;> omega

/-- A modulus below twice the modulus, unfolded into cases. -/
theorem mod_two_cases {a n : Nat} (h : a < 2 * n) :
    a % n = if a < n then a else a - n := by
  rcases lt_or_ge a n with h1 | h1
  · rw [if_pos h1, Nat.mod_eq_of_lt h1]
  · rw [if_neg (by omega), Nat.mod_eq_sub_mod h1, Nat.mod_eq_of_lt (by omega)]

/-- For masked operands, the wrap-all-the-way-around bound shape
`x = (y+1) mod 2^w` is the same as `modSub y x w = 2^w - 1`. -/
theorem topshape_iff {x y w : Nat} (hx : x < 2 ^ w) (hy : y < 2 ^ w) :
    x = (y + 1) % 2 ^ w ↔ modSub y x w = 2 ^ w - 1 := by
  rw [modSub_spec hy hx, mod_two_cases (show y + 1 < 2 * 2 ^ w by omega)]
  split <;> split <;> omega

/-- `_wrapped_cardinality` on masked operands. -/
theorem wcard_spec {x y w : Nat} (hx : x < 2 ^ w) (hy : y < 2 ^ w) :
    wcard x y w = if x = (y + 1) % 2 ^ w then 2 ^ w else modSub y x w + 1 := by
  unfold wcard
  split
  · rfl
  · next hne =>
    rw [Nat.mod_eq_of_lt hx, modSub_spec hy hx]
    rcases le_or_lt x y with h | h
    · have h2 : y + 2 ^ w + 1 - x = y + 1 - x + 2 ^ w := by omega
      have h3 : y + 1 - x < 2 ^ w := by
        rcases Nat.lt_or_ge (y + 1 - x) (2 ^ w) with h4 | h4
        · exact h4
        · exfalso
          apply hne
          have h5 : x = 0 ∧ y + 1 = 2 ^ w := by omega
          rw [h5.1, h5.2, Nat.mod_self]
      rw [h2, Nat.add_mod_right, Nat.mod_eq_of_lt h3, if_pos h]
      omega
    · have h3 : y + 2 ^ w + 1 - x < 2 ^ w := by
        rcases Nat.lt_or_ge (y + 2 ^ w + 1 - x) (2 ^ w) with h4 | h4
        · exact h4
        · exfalso
          apply hne
          have h5 : x = y + 1 := by omega
          rw [h5, Nat.mod_eq_of_lt (by omega)]
      rw [Nat.mod_eq_of_lt h3, if_neg (by omega)]
      omega

theorem wcard_pos {x y w : Nat} (hx : x < 2 ^ w) (hy : y < 2 ^ w) :
    0 < wcard x y w := by
  rw [wcard_spec hx hy]; split
  · exact two_pow_pos w
  · omega

/-! Case lemmas for the constructor normalization `SI.norm`. -/

theorem norm_bottom {s : SI} (h : s.bottom = true) : s.norm = s := by
  unfold SI.norm
  rw [if_pos h]

theorem norm_id {s : SI} (hb : s.bottom = false) (hne : s.lb ≠ s.ub)
    (htop : ¬(s.stride = 1 ∧ s.lb = (s.ub + 1) % 2 ^ s.bits)) : s.norm = s := by
  unfold SI.norm
  simp [hb, hne, htop]

theorem norm_singleton {s : SI} (hb : s.bottom = false) (heq : s.lb = s.ub) :
    s.norm = { s with stride := 0 } := by
  unfold SI.norm
  simp [hb, heq]

theorem norm_topshape {s : SI} (hb : s.bottom = false) (hne : s.lb ≠ s.ub)
    (hc : s.stride = 1 ∧ s.lb = (s.ub + 1) % 2 ^ s.bits) :
    s.norm = { s with lb := 0, ub := 2 ^ s.bits - 1 } := by
  unfold SI.norm
  rw [if_neg (by simp [hb]), if_neg hne, if_pos hc]

/-- Run the four-way case split of `SI.norm` and finish each branch
with record-projection `rfl`s.  Packaged as an eliminator for reuse. -/
theorem norm_cases (s : SI) (P : SI → Prop)
    (h1 : s.bottom = true → P s)
    (h2 : s.bottom = false → s.lb = s.ub → P { s with stride := 0 })
    (h3 : s.bottom = false → s.lb ≠ s.ub →
      s.stride = 1 ∧ s.lb = (s.ub + 1) % 2 ^ s.bits →
      P { s with lb := 0, ub := 2 ^ s.bits - 1 })
    (h4 : s.bottom = false → s.lb ≠ s.ub →
      ¬(s.stride = 1 ∧ s.lb = (s.ub + 1) % 2 ^ s.bits) → P s) :
    P s.norm := by
  by_cases hb : s.bottom = true
  · rw [norm_bottom hb]; exact h1 hb
  · replace hb : s.bottom = false := by simpa using hb
    by_cases he : s.lb = s.ub
    · rw [norm_singleton hb he]; exact h2 hb he
    · by_cases hc : s.stride = 1 ∧ s.lb = (s.ub + 1) % 2 ^ s.bits
      · rw [norm_topshape hb he hc]; exact h3 hb he hc
      · rw [norm_id hb he hc]; exact h4 hb he hc

theorem norm_bits (s : SI) : s.norm.bits = s.bits := by
  refine norm_cases s (fun r => r.bits = s.bits) ?_ ?_ ?_ ?_ <;> intros <;> rfl

theorem mkSI_bits (w a b c : Nat) : (mkSI w a b c).bits = w := norm_bits _

theorem mkSIi_bits (w a : Nat) (b c : Int) : (mkSIi w a b c).bits = w := norm_bits _

theorem norm_bottom_flag (s : SI) : s.norm.bottom = s.bottom := by
  refine norm_cases s (fun r => r.bottom = s.bottom) ?_ ?_ ?_ ?_ <;> intros <;> rfl

/-! ## C10: `empty(w)` satisfies `is_top` -/

/-- C10: for every width, the bottom StridedInterval produced by
`empty(w)` has `is_top = True` (the defaults give stride 1, lb 0,
ub `2^w - 1`, and `is_top` does not consult the bottom flag), so
`is_top` does not imply that the SI is non-empty. -/
theorem c10_empty_is_top :
    ∀ w : Nat, (SI.empty w).isTop = true ∧ (SI.empty w).isBottom = true := by
  intro w
  refine ⟨?_, rfl⟩
  simp [SI.isTop, SI.empty, Nat.sub_add_cancel one_le_two_pow, Nat.mod_self]

end VSA

namespace VSA

/-! ## C1: soundness of the pseudo-least-upper-bound (refuted) -/

/-- C1 failing input: for `x = <2>1[2,3]` and `y = <2>1[3,0]` (both
well-formed, normalized, disciplined SIs), `union` computed via
`_least_upper_bound` returns `<2>1[3,0]`, which is not an upper bound of
`x` in the wrapped poset order: `_wrapped_lte(x, union(x,y))` is False
(the value 2 of `x` is not covered).  This contradicts the docstring of
`_least_upper_bound` ("Interval that contains all intervals"): inside
`_interval_extend([3,0], [2,3])` the candidate `[s.lb, t.ub] = [3,3]`
normalizes to the singleton `{3}` and coverage of 2 is lost. -/
theorem c1_union_not_upper_bound :
    Valid ⟨2, 1, 2, 3, false⟩ ∧ Valid ⟨2, 1, 3, 0, false⟩ ∧
    SI.union ⟨2, 1, 2, 3, false⟩ ⟨2, 1, 3, 0, false⟩ = ⟨2, 1, 3, 0, false⟩ ∧
    SI.wrappedLte ⟨2, 1, 2, 3, false⟩
      (SI.union ⟨2, 1, 2, 3, false⟩ ⟨2, 1, 3, 0, false⟩) = false := by
  decide

/-! ## C7: the concrete scenario `<8>2[0x02,0x0a].add(itself)` -/

/-- C7 counterexample: the claimed result `<8>4[0x04,0x14]` is wrong;
`add` takes the gcd of the strides, `gcd(2,2) = 2`, not 4. -/
theorem c7_add_stride_cex :
    SI.add ⟨8, 2, 2, 10, false⟩ ⟨8, 2, 2, 10, false⟩ ≠ ⟨8, 4, 4, 20, false⟩ := by
  decide

/-- C7 amended: for the 8-bit SI `x` with stride 2 and bounds
`[0x02, 0x0a]`, `x.add(x)` returns the 8-bit SI with stride 2 (the gcd
of the operand strides) and bounds `[0x04, 0x14]`. -/
theorem c7_add_example :
    SI.add ⟨8, 2, 2, 10, false⟩ ⟨8, 2, 2, 10, false⟩ = ⟨8, 2, 4, 20, false⟩ := by
  decide

/-! ## C8: comparison duality (SLT versus SGE refuted) -/

/-- C8 counterexample: for the well-formed pair `x = <4>2[0xE,0x8]`
(the set `{14,0,2,4,6,8}`, which straddles both poles) and
`y = <4>0[7,7]`, `SLT(x,y)` is True but `SGE(x,y)` is Maybe, so
`SLT` is not the three-valued negation of `SGE`. -/
theorem c8_slt_sge_duality_cex :
    Valid ⟨4, 2, 14, 8, false⟩ ∧ Valid ⟨4, 0, 7, 7, false⟩ ∧
    SI.SLT ⟨4, 2, 14, 8, false⟩ ⟨4, 0, 7, 7, false⟩ = Tri.t ∧
    SI.SGE ⟨4, 2, 14, 8, false⟩ ⟨4, 0, 7, 7, false⟩ = Tri.m ∧
    SI.SLT ⟨4, 2, 14, 8, false⟩ ⟨4, 0, 7, 7, false⟩ ≠
      triNot (SI.SGE ⟨4, 2, 14, 8, false⟩ ⟨4, 0, 7, 7, false⟩) := by
  decide

/-! ## C6: the overflow condition of `add` (corrected) -/

/-- C6 counterexample: with `a = <4>0[0,0]` (the singleton zero) and
`b = <4>1[0,0xE]`, the sum of the wrapped cardinalities is `1 + 15 = 16`,
which exceeds `max_int(4) = 15`, so the claim requires TOP; but
`_wrappedoverflow_add` counts the singleton-zero operand as cardinality
0 and `add` returns `<4>1[0,0xE]` instead. -/
theorem c6_add_overflow_cex :
    Valid ⟨4, 0, 0, 0, false⟩ ∧ Valid ⟨4, 1, 0, 14, false⟩ ∧
    maxInt 4 < wcard 0 0 4 + wcard 0 14 4 ∧
    SI.add ⟨4, 0, 0, 0, false⟩ ⟨4, 1, 0, 14, false⟩ = ⟨4, 1, 0, 14, false⟩ ∧
    SI.add ⟨4, 0, 0, 0, false⟩ ⟨4, 1, 0, 14, false⟩ ≠ SI.top 4 := by
  decide

/-! ## C3: the stride discipline (refuted by rshift) -/

/-- C3 counterexample: `rshift` violates the stride discipline.
`<8>10[0x02,0x0c]` (well-formed: `(12-2) mod 10 = 0`) shifted right by 2
yields `<8>2[0x00,0x03]`, and `(3 - 0) mod 2 = 1 ≠ 0`. -/
theorem c3_rshift_discipline_cex :
    Valid ⟨8, 10, 2, 12, false⟩ ∧
    SI.rshiftInt ⟨8, 10, 2, 12, false⟩ 2 false = ⟨8, 2, 0, 3, false⟩ ∧
    ¬ Disciplined (SI.rshiftInt ⟨8, 10, 2, 12, false⟩ 2 false) := by
  decide

/-! ## C5: exactness of `zero_extend` (refuted for wrapped intervals) -/

/-- C5 counterexample: for the wrapped `x = <4>1[0xE,0x2]`
(concretization `{14,15,0,1,2}`), `zero_extend(x, 8)` concretizes to
`{14,...,255,0,1,2}`: the value 16 appears in the extension but not in
`x`, so `zero_extend` is not exact on wrapped intervals. -/
theorem c5_zero_extend_cex :
    16 ∈ SI.concretize (SI.zeroExtend ⟨4, 1, 14, 2, false⟩ 8) ∧
    16 ∉ SI.concretize ⟨4, 1, 14, 2, false⟩ ∧
    SI.concretize (SI.zeroExtend ⟨4, 1, 14, 2, false⟩ 8) ≠
      SI.concretize ⟨4, 1, 14, 2, false⟩ := by
  decide

end VSA

namespace VSA

/-! ## C4: `bitwise_xor` and the `mew_stride` NameError -/

theorem ssplit_ne_nil (s : SI) : s.ssplit ≠ [] := by
  unfold SI.ssplit
  split <;> simp

/-- C4: every call of `bitwise_xor` raises: the method computes the
Warren bounds for the first pair of south-pole pieces and then the
`StridedInterval(...)` call references the undefined name `mew_stride`,
producing a `NameError` before any SI is returned. -/
theorem c4_bitwise_xor_raises :
    ∀ s t : SI, SI.bitwiseXor s t =
      Except.error "NameError: global name mew_stride is not defined" := by
  intro s t
  unfold SI.bitwiseXor
  rcases hs : s.ssplit with _ | ⟨u, us⟩
  · exact absurd hs (ssplit_ne_nil s)
  rcases ht : t.ssplit with _ | ⟨v, vs⟩
  · exact absurd ht (ssplit_ne_nil t)
  simp only [hs, ht]
  rfl

/-! ## Lemmas on bottom/top elements, toward C9 -/

theorem isTop_empty (w : Nat) : (SI.empty w).isTop = true := by
  simp [SI.isTop, SI.empty, Nat.sub_add_cancel one_le_two_pow, Nat.mod_self]

theorem wrappedLte_empty_right (a : SI) (w : Nat) :
    a.wrappedLte (SI.empty w) = true := by
  unfold SI.wrappedLte
  by_cases hb : a.bottom
  · simp [hb]
  · by_cases ht : a.isTop <;> simp [hb, ht, isTop_empty]

theorem intervalExtend_empty_right (f : SI) (w : Nat) :
    f.intervalExtend (SI.empty w) = SI.empty w := by
  unfold SI.intervalExtend
  simp [wrappedLte_empty_right]

theorem card_empty (w : Nat) : (SI.empty w).card = 0 := by
  simp [SI.card, SI.empty]

theorem modSub_zero_right (a w : Nat) (ha : a < 2 ^ w) : modSub a 0 w = a := by
  unfold modSub
  rw [Nat.zero_mod, Nat.sub_zero, Nat.add_mod_right, Nat.mod_eq_of_lt ha]

theorem mem_empty (w v : Nat) : (SI.empty w).mem v = true := by
  have hp := two_pow_pos w
  have h1 : modSub (2 ^ w - 1) 0 w = 2 ^ w - 1 :=
    modSub_zero_right _ w (by omega)
  simp only [SI.mem, SI.empty, h1, decide_eq_true_eq]
  have := modSub_lt v 0 w
  omega

theorem gap_empty_empty (w : Nat) :
    SI.gap (SI.empty w) (SI.empty w) = SI.empty w := by
  unfold SI.gap
  rw [if_neg (by simp [mem_empty])]
  rfl

theorem bigger_empty_empty (w : Nat) :
    SI.bigger (SI.empty w) (SI.empty w) = SI.empty w := by
  simp [SI.bigger]

theorem complement_empty (w : Nat) : (SI.empty w).complement = SI.top w := by
  simp [SI.complement, SI.empty]

theorem one_lt_two_pow {w : Nat} (hw : 0 < w) : (1 : Nat) < 2 ^ w := by
  calc 1 < 2 ^ 1 := by norm_num
  _ ≤ 2 ^ w := Nat.pow_le_pow_right (by norm_num) hw

theorem top_eq {w : Nat} (hw : 0 < w) : SI.top w = ⟨w, 1, 0, 2 ^ w - 1, false⟩ := by
  have h2 := one_lt_two_pow hw
  unfold SI.top mkSI
  simp only [Nat.zero_mod, Nat.mod_eq_of_lt (show 2 ^ w - 1 < 2 ^ w by omega)]
  rw [norm_topshape rfl (by simp; omega)
    ⟨rfl, by simp [Nat.sub_add_cancel one_le_two_pow, Nat.mod_self]⟩]

theorem isTop_top {w : Nat} (hw : 0 < w) : (SI.top w).isTop = true := by
  rw [top_eq hw]
  simp [SI.isTop, Nat.sub_add_cancel one_le_two_pow, Nat.mod_self]

theorem complement_top {w : Nat} (hw : 0 < w) :
    (SI.top w).complement = SI.empty w := by
  unfold SI.complement
  rw [if_neg (by rw [top_eq hw]; simp), if_pos (isTop_top hw)]
  rw [top_eq hw]

theorem card_top {w : Nat} (hw : 0 < w) : (SI.top w).card = 2 ^ w := by
  have h2 := one_lt_two_pow hw
  rw [top_eq hw]
  unfold SI.card
  rw [if_neg (by simp), if_neg (by simp; omega)]
  have h1 : modSub (2 ^ w - 1) 0 w = 2 ^ w - 1 :=
    modSub_zero_right _ w (by omega)
  simp [h1]
  omega

theorem mem_insertByLb {x a : SI} {m : List SI} (h : x ∈ insertByLb a m) :
    x = a ∨ x ∈ m := by
  induction m with
  | nil =>
    rw [insertByLb, List.mem_singleton] at h
    exact Or.inl h
  | cons y t ih =>
    by_cases hle : a.lb ≤ y.lb
    · simp only [insertByLb, if_pos hle, List.mem_cons] at h
      simpa [List.mem_cons] using h
    · simp only [insertByLb, if_neg hle, List.mem_cons] at h
      rcases h with h | h
      · exact Or.inr (by simp [h])
      · rcases ih h with h1 | h1
        · exact Or.inl h1
        · exact Or.inr (by simp [h1])

theorem mem_sortByLb {x : SI} {l : List SI} (h : x ∈ sortByLb l) : x ∈ l := by
  induction l with
  | nil => rw [sortByLb] at h; exact h
  | cons y t ih =>
    unfold sortByLb at h
    rcases mem_insertByLb h with h1 | h1
    · simp [h1]
    · simp [ih h1]

theorem sortByLb_length (l : List SI) : (sortByLb l).length = l.length := by
  induction l with
  | nil => rfl
  | cons y t ih =>
    have hins : ∀ (a : SI) (m : List SI), (insertByLb a m).length = m.length + 1 := by
      intro a m
      induction m with
      | nil => rfl
      | cons b u ihm =>
        unfold insertByLb
        split
        · rfl
        · simp [ihm]
    simp [sortByLb, hins, ih]

/-- `_least_upper_bound` of a non-empty family of bottom SIs is bottom. -/
theorem lub_all_empty {w : Nat} (hw : 0 < w) :
    ∀ l : List SI, l ≠ [] → (∀ s ∈ l, s = SI.empty w) → SI.lub l = SI.empty w := by
  intro l hne hall
  match l with
  | [] => exact absurd rfl hne
  | [x] =>
    have := hall x (by simp)
    simpa [SI.lub] using this
  | x :: y :: t =>
    have hx : x = SI.empty w := hall x (by simp)
    subst hx
    have hsorted : ∀ s ∈ sortByLb (SI.empty w :: y :: t), s = SI.empty w :=
      fun s hs => hall s (mem_sortByLb hs)
    show SI.lubCore (SI.empty w :: y :: t) w 1 = SI.empty w
    have H1 : ∀ (m : List SI), (∀ s ∈ m, s = SI.empty w) →
        m.foldl (fun f s =>
          if s.isTop ∨ s.ub % 2 ^ w ≤ s.lb % 2 ^ w then f.intervalExtend s else f)
          (SI.empty w) = SI.empty w := by
      intro m
      induction m with
      | nil => intro _; rfl
      | cons a u ih =>
        intro hm
        have ha : a = SI.empty w := hm a (by simp)
        have hstep : (if a.isTop ∨ a.ub % 2 ^ w ≤ a.lb % 2 ^ w
            then (SI.empty w).intervalExtend a else SI.empty w) = SI.empty w := by
          rw [ha]
          split <;> simp [intervalExtend_empty_right]
        rw [List.foldl_cons, hstep]
        exact ih (fun s hs => hm s (by simp [hs]))
    have H2 : ∀ (m : List SI), (∀ s ∈ m, s = SI.empty w) →
        m.foldl (fun (p : SI × SI) s =>
          (SI.bigger p.1 (SI.gap p.2 s), p.2.intervalExtend s))
          (SI.empty w, SI.empty w) = (SI.empty w, SI.empty w) := by
      intro m
      induction m with
      | nil => intro _; rfl
      | cons a u ih =>
        intro hm
        have ha : a = SI.empty w := hm a (by simp)
        rw [List.foldl_cons]
        have hstep : (SI.bigger (SI.empty w) (SI.gap (SI.empty w) a),
            (SI.empty w).intervalExtend a) = (SI.empty w, SI.empty w) := by
          rw [ha, gap_empty_empty, bigger_empty_empty, intervalExtend_empty_right]
        rw [hstep]
        exact ih (fun s hs => hm s (by simp [hs]))
    have hbig : SI.bigger (SI.empty w) (SI.top w) = SI.top w := by
      unfold SI.bigger
      rw [if_pos (by rw [card_top hw, card_empty]; exact two_pow_pos w)]
    have hne2 : ¬ ((SI.empty w).lb = (SI.empty w).ub) := by
      simp only [SI.empty]
      have h2 := one_lt_two_pow hw
      omega
    simp only [SI.lubCore]
    rw [H1 (sortByLb (SI.empty w :: y :: t)) hsorted,
      H2 (sortByLb (SI.empty w :: y :: t)) hsorted]
    simp only
    rw [complement_empty, hbig, complement_top hw, if_neg hne2,
      if_pos (isTop_empty w)]
    rfl

end VSA

namespace VSA

/-! ## C9: division by a singleton zero -/

theorem ssplit_mem_bits {s p : SI} (h : p ∈ s.ssplit) : p.bits = s.bits := by
  unfold SI.ssplit at h
  split at h
  · simp only [List.mem_cons, List.not_mem_nil, or_false] at h
    rcases h with h | h <;> rw [h, mkSI_bits]
  · simp only [List.mem_singleton] at h
    rw [h]

theorem nsplit_mem_bits {s p : SI} (h : p ∈ s.nsplit) : p.bits = s.bits := by
  unfold SI.nsplit at h
  split at h
  · simp only [List.mem_cons, List.not_mem_nil, or_false] at h
    rcases h with h | h <;> rw [h, mkSIi_bits]
  · simp only [List.mem_singleton] at h
    rw [h]

theorem psplit_mem_bits {s p : SI} (h : p ∈ s.psplit) : p.bits = s.bits := by
  unfold SI.psplit at h
  rw [List.mem_flatMap] at h
  obtain ⟨q, hq, hp⟩ := h
  rw [ssplit_mem_bits hp, nsplit_mem_bits hq]

theorem nsplit_ne_nil (s : SI) : s.nsplit ≠ [] := by
  unfold SI.nsplit
  split <;> simp

theorem psplit_ne_nil (s : SI) : s.psplit ≠ [] := by
  unfold SI.psplit
  rcases hn : s.nsplit with _ | ⟨q, r⟩
  · exact absurd hn (nsplit_ne_nil s)
  · rcases hs : q.ssplit with _ | ⟨p, u⟩
    · exact absurd hs (ssplit_ne_nil q)
    · simp [hs]

/-- The singleton zero of width `w` as an SI. -/
def zeroSI (w : Nat) : SI := ⟨w, 0, 0, 0, false⟩

theorem ssplit_zero (w : Nat) : (zeroSI w).ssplit = [zeroSI w] := by
  unfold SI.ssplit zeroSI
  simp

theorem psplit_zero (w : Nat) : (zeroSI w).psplit = [zeroSI w] := by
  have h1 : ¬ (2 ^ (w - 1) ≤ 0) := by
    have := two_pow_pos (w - 1)
    omega
  unfold SI.psplit SI.nsplit nsplitStraddles zeroSI
  simp [h1, SI.ssplit]

theorem wudiv_zero (dv : SI) (w : Nat) :
    wudiv dv (zeroSI w) = SI.empty (max dv.bits w) := by
  unfold wudiv zeroSI
  simp

theorem wsdiv_zero (dv : SI) (w : Nat) :
    wsdiv dv (zeroSI w) = SI.empty (max dv.bits w) := by
  unfold wsdiv zeroSI
  simp

/-- C9: dividing any StridedInterval by the singleton zero
(`stride 0, lb = ub = 0`) yields the bottom SI of the operand width,
for both `udiv` and `sdiv`. -/
theorem c9_div_by_singleton_zero :
    ∀ (w : Nat) (a : SI), 0 < w → Valid a → a.bits = w →
      SI.udiv a (zeroSI w) = SI.empty w ∧ SI.sdiv a (zeroSI w) = SI.empty w := by
  intro w a hw _hv hb
  constructor
  · unfold SI.udiv
    apply lub_all_empty hw
    · rcases hs : a.ssplit with _ | ⟨u, us⟩
      · exact absurd hs (ssplit_ne_nil a)
      · rw [ssplit_zero]
        simp [hs]
    · intro s hs
      rw [ssplit_zero] at hs
      simp only [List.mem_flatMap, List.mem_map, List.mem_singleton] at hs
      obtain ⟨dv, hdv, ds, hds, hse⟩ := hs
      rw [← hse, hds, wudiv_zero, ssplit_mem_bits hdv, hb, Nat.max_self]
  · unfold SI.sdiv
    apply lub_all_empty hw
    · rcases hs : a.psplit with _ | ⟨u, us⟩
      · exact absurd hs (psplit_ne_nil a)
      · rw [psplit_zero w]
        simp [hs]
    · intro s hs
      rw [psplit_zero w] at hs
      simp only [List.mem_flatMap, List.mem_map, List.mem_singleton] at hs
      obtain ⟨dv, hdv, ds, hds, hse⟩ := hs
      rw [← hse, hds, wsdiv_zero, psplit_mem_bits hdv, hb, Nat.max_self]

/-- Witness for C9 at `w = 8`, `a = <8>2[0x02,0x0a]`. -/
theorem c9_div_by_singleton_zero_witness :
    SI.udiv ⟨8, 2, 2, 10, false⟩ (zeroSI 8) = SI.empty 8 ∧
    SI.sdiv ⟨8, 2, 2, 10, false⟩ (zeroSI 8) = SI.empty 8 :=
  c9_div_by_singleton_zero 8 ⟨8, 2, 2, 10, false⟩ (by decide) (by decide) rfl

end VSA

namespace VSA

/-! ## C8: comparison relations that do hold -/

theorem aggregate_eq_t {l : List Tri} :
    aggregate l = .t ↔ l.all (· = .t) = true := by
  unfold aggregate
  split_ifs with h1 h2
  · simp [h1]
  · simp [h1]
  · simp [h1]

theorem aggregate_eq_f {l : List Tri} :
    aggregate l = .f ↔ (¬ l.all (· = .t) = true ∧ l.all (· = .f) = true) := by
  unfold aggregate
  split_ifs with h1 h2
  · simp [h1]
  · simp [h1, h2]
  · simp [h1, h2]

theorem sltPair_f {p q : Int × Int} (h : sltPair p q = .f) : sgePair p q = .t := by
  unfold sltPair at h
  unfold sgePair
  split_ifs at h ⊢
  all_goals simp_all

theorem sgePair_f {p q : Int × Int} (h : sgePair p q = .f) : sltPair p q = .t := by
  unfold sgePair at h
  unfold sltPair
  split_ifs at h ⊢
  all_goals simp_all

theorem ultPair_t {p q : Nat × Nat} (h : ultPair p q = .t) : ulePair p q = .t := by
  unfold ultPair at h
  unfold ulePair
  by_cases h1 : p.2 < q.1
  · rw [if_pos (Nat.le_of_lt h1)]
  · rw [if_neg h1] at h
    split_ifs at h

/-- C8 amended: for all StridedIntervals, `ULT(x,y) = True` implies
`ULE(x,y) = True`; and `SLT`/`SGE` are dual in the definite-False
direction: `SLT(x,y) = False` implies `SGE(x,y) = True` and
`SGE(x,y) = False` implies `SLT(x,y) = True`.  (The full three-valued
equivalence `SLT = ¬SGE` fails, see the counterexample.) -/
theorem c8_comparison_duality :
    ∀ x y : SI,
      (SI.ULT x y = Tri.t → SI.ULE x y = Tri.t) ∧
      (SI.SLT x y = Tri.f → SI.SGE x y = Tri.t) ∧
      (SI.SGE x y = Tri.f → SI.SLT x y = Tri.t) := by
  intro x y
  refine ⟨?_, ?_, ?_⟩ <;> intro h
  · unfold SI.ULT at h
    unfold SI.ULE
    rw [aggregate_eq_t] at h ⊢
    simp only [List.all_eq_true, List.mem_flatMap, List.mem_map] at h ⊢
    rintro r ⟨p, hp, q, hq, rfl⟩
    have := h (ultPair p q) ⟨p, hp, q, hq, rfl⟩
    simp only [decide_eq_true_eq] at this ⊢
    exact ultPair_t this
  · unfold SI.SLT at h
    unfold SI.SGE
    rw [aggregate_eq_f] at h
    rw [aggregate_eq_t]
    have h2 := h.2
    simp only [List.all_eq_true, List.mem_flatMap, List.mem_map] at h2 ⊢
    rintro r ⟨p, hp, q, hq, rfl⟩
    have := h2 (sltPair p q) ⟨p, hp, q, hq, rfl⟩
    simp only [decide_eq_true_eq] at this ⊢
    exact sltPair_f this
  · unfold SI.SGE at h
    unfold SI.SLT
    rw [aggregate_eq_f] at h
    rw [aggregate_eq_t]
    have h2 := h.2
    simp only [List.all_eq_true, List.mem_flatMap, List.mem_map] at h2 ⊢
    rintro r ⟨p, hp, q, hq, rfl⟩
    have := h2 (sgePair p q) ⟨p, hp, q, hq, rfl⟩
    simp only [decide_eq_true_eq] at this ⊢
    exact sgePair_f this

/-- Witness for C8 at concrete inputs: `ULT/ULE` on `<8>1[0,0x7F]` vs
`<8>1[0x80,0xFF]`, and `SLT/SGE` on the singletons `{7}` and `{-8}`. -/
theorem c8_comparison_duality_witness :
    SI.ULE ⟨8, 1, 0, 127, false⟩ ⟨8, 1, 128, 255, false⟩ = Tri.t ∧
    SI.SGE ⟨4, 0, 7, 7, false⟩ ⟨4, 0, 8, 8, false⟩ = Tri.t ∧
    SI.SLT ⟨4, 0, 8, 8, false⟩ ⟨4, 0, 7, 7, false⟩ = Tri.t := by
  refine ⟨?_, ?_, ?_⟩
  · exact (c8_comparison_duality ⟨8, 1, 0, 127, false⟩ ⟨8, 1, 128, 255, false⟩).1
      (by decide)
  · exact (c8_comparison_duality ⟨4, 0, 7, 7, false⟩ ⟨4, 0, 8, 8, false⟩).2.1
      (by decide)
  · exact (c8_comparison_duality ⟨4, 0, 8, 8, false⟩ ⟨4, 0, 7, 7, false⟩).2.2
      (by decide)

end VSA

namespace VSA

/-! ## C5: `zero_extend` is exact on non-wrapping intervals -/

/-- C5 amended: for every SI with masked bounds that does not wrap
(`lb ≤ ub`), `zero_extend` to any width `n ≥ bits` preserves the
concretization exactly.  (For wrapped intervals it does not, see the
counterexample.) -/
theorem c5_zero_extend_exact_nonwrapping :
    ∀ (s : SI) (n : Nat), s.bits ≤ n → s.ub < 2 ^ s.bits → s.lb ≤ s.ub →
      SI.concretize (SI.zeroExtend s n) = SI.concretize s := by
  intro s n hbn hub hle
  have hlb : s.lb < 2 ^ s.bits := lt_of_le_of_lt hle hub
  have hpow : 2 ^ s.bits ≤ 2 ^ n := Nat.pow_le_pow_right (by norm_num) hbn
  have hms : modSub s.ub s.lb n = modSub s.ub s.lb s.bits := by
    rw [modSub_spec (lt_of_lt_of_le hub hpow) (lt_of_lt_of_le hlb hpow),
      modSub_spec hub hlb, if_pos hle, if_pos hle]
  have hcard : (SI.zeroExtend s n).card = s.card := by
    show (if s.bottom then 0 else if s.lb = s.ub then 1
      else (modSub s.ub s.lb n + s.stride) / s.stride) = s.card
    rw [hms]
    rfl
  unfold SI.concretize
  rw [hcard]
  apply List.map_congr_left
  intro k hk
  rw [List.mem_range] at hk
  show (s.lb + k * s.stride) % 2 ^ n = (s.lb + k * s.stride) % 2 ^ s.bits
  have hbound : s.lb + k * s.stride < 2 ^ s.bits := by
    unfold SI.card at hk
    split at hk
    · omega
    split at hk
    · have hk0 : k = 0 := by omega
      subst hk0
      simpa using hlb
    rcases Nat.eq_zero_or_pos s.stride with h0 | hpos
    · rw [h0] at hk
      rw [modSub_spec hub hlb, if_pos hle] at hk
      simp only [Nat.add_zero, Nat.div_zero] at hk
      omega
    · rw [modSub_spec hub hlb, if_pos hle] at hk
      have hdiv : (s.ub - s.lb + s.stride) / s.stride = (s.ub - s.lb) / s.stride + 1 := by
        rw [Nat.add_div_right _ hpos]
      rw [hdiv] at hk
      have hks : k ≤ (s.ub - s.lb) / s.stride := by omega
      have : k * s.stride ≤ s.ub - s.lb := (Nat.le_div_iff_mul_le hpos).mp hks
      omega
  rw [Nat.mod_eq_of_lt (lt_of_lt_of_le hbound hpow), Nat.mod_eq_of_lt hbound]

/-- Witness for C5 at `x = <4>1[0x3,0xD]`, extended to 8 bits. -/
theorem c5_zero_extend_exact_nonwrapping_witness :
    SI.concretize (SI.zeroExtend ⟨4, 1, 3, 13, false⟩ 8) =
      SI.concretize ⟨4, 1, 3, 13, false⟩ :=
  c5_zero_extend_exact_nonwrapping ⟨4, 1, 3, 13, false⟩ 8 (by decide) (by decide)
    (by decide)

end VSA

namespace VSA

/-! ## C2: the `complement` formula -/

/-- C2: `complement` of bottom is TOP; of (non-bottom) TOP is bottom;
otherwise, for well-formed SIs, the result has lower bound
`(ub+1) mod 2^w`, upper bound `(lb-1) mod 2^w`, and stride
`gcd(old_stride, wrapped_cardinality(ub+1, lb-1, w) - 1)`, with stride 0
for a singleton result and stride 1 when the old stride was 0; in
particular the complement of `<4>1[0xE,0x2]` is `<4>1[0x3,0xD]`. -/
theorem c2_complement_spec :
    (∀ w : Nat, (SI.empty w).complement = SI.top w) ∧
    (∀ x : SI, x.bottom = false → x.isTop = true → x.complement = SI.empty x.bits) ∧
    (∀ x : SI, Valid x → x.bottom = false → x.isTop = false →
      x.complement = complementSpec x) ∧
    SI.complement ⟨4, 1, 14, 2, false⟩ = ⟨4, 1, 3, 13, false⟩ := by
  refine ⟨complement_empty, ?_, ?_, by decide⟩
  · intro x hb ht
    unfold SI.complement
    rw [if_neg (by simp [hb]), if_pos ht]
  · intro x hv hb ht
    obtain ⟨hw, hlbx, hubx, hsiff, hdisc⟩ := hv
    have hn := two_pow_pos x.bits
    have h1lt : (1 : Nat) < 2 ^ x.bits := one_lt_two_pow hw
    have hLlt : (x.ub + 1) % 2 ^ x.bits < 2 ^ x.bits := Nat.mod_lt _ hn
    have hUlt : modSub x.lb 1 x.bits < 2 ^ x.bits := modSub_lt _ _ _
    have hwc : 0 < wcard ((x.ub + 1) % 2 ^ x.bits) (modSub x.lb 1 x.bits) x.bits :=
      wcard_pos hLlt hUlt
    have hdist : ¬ ((wcard ((x.ub + 1) % 2 ^ x.bits) (modSub x.lb 1 x.bits) x.bits : Int)
        - 1 < 0) := by
      have h1 : (1 : Int) ≤
          (wcard ((x.ub + 1) % 2 ^ x.bits) (modSub x.lb 1 x.bits) x.bits : Int) := by
        exact_mod_cast hwc
      omega
    have htn : ((wcard ((x.ub + 1) % 2 ^ x.bits) (modSub x.lb 1 x.bits) x.bits : Int)
        - 1).toNat = wcard ((x.ub + 1) % 2 ^ x.bits) (modSub x.lb 1 x.bits) x.bits - 1 := by
      omega
    have hUplus : (modSub x.lb 1 x.bits + 1) % 2 ^ x.bits = x.lb := by
      unfold modSub
      rw [Nat.mod_eq_of_lt h1lt, Nat.mod_add_mod]
      have he : x.lb + 2 ^ x.bits - 1 + 1 = x.lb + 2 ^ x.bits := by omega
      rw [he, Nat.add_mod_right, Nat.mod_eq_of_lt hlbx]
    have hcode : x.complement = mkSI x.bits
        (if ((wcard ((x.ub + 1) % 2 ^ x.bits) (modSub x.lb 1 x.bits) x.bits : Int) - 1) < 0
          then 0
          else if x.stride = 0 then 1
          else Nat.gcd x.stride
            ((wcard ((x.ub + 1) % 2 ^ x.bits) (modSub x.lb 1 x.bits) x.bits : Int)
              - 1).toNat)
        ((x.ub + 1) % 2 ^ x.bits) (modSub x.lb 1 x.bits) := by
      unfold SI.complement
      rw [if_neg (by simp [hb]), if_neg (by simp [ht])]
    rw [hcode, if_neg hdist, htn]
    unfold mkSI
    rw [Nat.mod_eq_of_lt hLlt, Nat.mod_eq_of_lt hUlt]
    by_cases hLU : (x.ub + 1) % 2 ^ x.bits = modSub x.lb 1 x.bits
    · rw [norm_singleton rfl hLU]
      unfold complementSpec
      rw [if_pos hLU]
    · have hnotop : ¬ ((if x.stride = 0 then 1
          else Nat.gcd x.stride
            (wcard ((x.ub + 1) % 2 ^ x.bits) (modSub x.lb 1 x.bits) x.bits - 1)) = 1 ∧
          (x.ub + 1) % 2 ^ x.bits = (modSub x.lb 1 x.bits + 1) % 2 ^ x.bits) := by
        rintro ⟨hstr1, hts0⟩
        have hts : (x.ub + 1) % 2 ^ x.bits = x.lb := by rw [hts0, hUplus]
        have hxs1 : x.stride ≠ 1 := by
          intro h1
          have htt : x.isTop = true := by
            simp [SI.isTop, h1, hts.symm]
          rw [ht] at htt
          cases htt
        rcases Nat.eq_zero_or_pos x.stride with h0 | hpos
        · have hlu : x.lb = x.ub := hsiff.mp h0
          rw [hlu, mod_two_cases (by omega)] at hts
          split at hts <;> omega
        · rw [if_neg (by omega)] at hstr1
          have hwcv : wcard ((x.ub + 1) % 2 ^ x.bits) (modSub x.lb 1 x.bits) x.bits
              = 2 ^ x.bits := by
            unfold wcard
            rw [if_pos hts0]
          rw [hwcv] at hstr1
          have hms : modSub x.ub x.lb x.bits = 2 ^ x.bits - 1 :=
            (topshape_iff hlbx hubx).mp hts.symm
          have hdvd : x.stride ∣ 2 ^ x.bits - 1 := by
            have hd := hdisc hpos
            rw [hms] at hd
            exact Nat.dvd_of_mod_eq_zero hd
          have hgl : Nat.gcd x.stride (2 ^ x.bits - 1) = x.stride := Nat.gcd_eq_left hdvd
          omega
      rw [norm_id rfl hLU hnotop]
      unfold complementSpec
      rw [if_neg hLU]

/-- Witness for C2 at `x = <4>2[0x2,0xA]` (the set `{2,4,6,8,10}`),
plus the bottom/top clauses at width 4. -/
theorem c2_complement_spec_witness :
    (SI.empty 4).complement = SI.top 4 ∧
    (SI.top 4).complement = SI.empty (SI.top 4).bits ∧
    (⟨4, 2, 2, 10, false⟩ : SI).complement = complementSpec ⟨4, 2, 2, 10, false⟩ := by
  refine ⟨c2_complement_spec.1 4, ?_, ?_⟩
  · exact c2_complement_spec.2.1 (SI.top 4) (by decide) (by decide)
  · exact c2_complement_spec.2.2.1 ⟨4, 2, 2, 10, false⟩ (by decide) rfl (by decide)

end VSA

/-! ## C6 and C3: the `add` formula and the stride discipline of `add` -/

namespace VSA

theorem modSub_add_add {a1 b1 a2 b2 w : Nat} (ha1 : a1 < 2 ^ w) (hb1 : b1 < 2 ^ w)
    (ha2 : a2 < 2 ^ w) (hb2 : b2 < 2 ^ w) :
    modSub ((a1 + a2) % 2 ^ w) ((b1 + b2) % 2 ^ w) w
      = (modSub a1 b1 w + modSub a2 b2 w) % 2 ^ w := by
  have hn := two_pow_pos w
  rw [modSub_spec (Nat.mod_lt _ hn) (Nat.mod_lt _ hn), modSub_spec ha1 hb1,
    modSub_spec ha2 hb2,
    mod_two_cases (show a1 + a2 < 2 * 2 ^ w by omega),
    mod_two_cases (show b1 + b2 < 2 * 2 ^ w by omega),
    mod_two_cases (show (if b1 ≤ a1 then a1 - b1 else a1 + 2 ^ w - b1) +
      (if b2 ≤ a2 then a2 - b2 else a2 + 2 ^ w - b2) < 2 * 2 ^ w by
        split_ifs <;> omega)]
  split_ifs <;> omega

theorem cardZ_cases (s : SI) (hl : s.lb < 2 ^ s.bits) (hu : s.ub < 2 ^ s.bits) :
    (s.lb = s.ub ∧ s.lb = 0 ∧ cardZ s = 0)
    ∨ cardZ s = 2 ^ s.bits
    ∨ cardZ s = modSub s.ub s.lb s.bits + 1 := by
  unfold cardZ
  split_ifs with h1
  · exact Or.inl ⟨h1.1, h1.2, rfl⟩
  · rw [wcard_spec hl hu]
    split_ifs with h2
    · exact Or.inr (Or.inl rfl)
    · exact Or.inr (Or.inr rfl)

end VSA

namespace VSA

theorem cardZ_cases' (w st lb ub : Nat) (bot : Bool) (hl : lb < 2 ^ w)
    (hu : ub < 2 ^ w) :
    (lb = ub ∧ lb = 0 ∧ cardZ ⟨w, st, lb, ub, bot⟩ = 0)
    ∨ cardZ ⟨w, st, lb, ub, bot⟩ = 2 ^ w
    ∨ cardZ ⟨w, st, lb, ub, bot⟩ = modSub ub lb w + 1 :=
  cardZ_cases ⟨w, st, lb, ub, bot⟩ hl hu

theorem add_noflow_spec {a b : SI} (ha : Valid a) (hb : Valid b) (hw : a.bits = b.bits)
    (hov : ¬ overflowAdd a b = true) :
    modSub ((a.ub + b.ub) % 2 ^ a.bits) ((a.lb + b.lb) % 2 ^ a.bits) a.bits
        = modSub a.ub a.lb a.bits + modSub b.ub b.lb b.bits ∧
      modSub a.ub a.lb a.bits + modSub b.ub b.lb b.bits ≤ 2 ^ a.bits - 2 := by
  obtain ⟨wb, sb, lb2, ub2, botb⟩ := b
  simp only at hw
  subst hw
  obtain ⟨hwa, hal, hau, haiff, _⟩ := ha
  obtain ⟨_, hbl, hbu, hbiff, _⟩ := hb
  simp only at hbl hbu hbiff ⊢
  have hn := two_pow_pos a.bits
  have h2 := one_lt_two_pow hwa
  simp only [overflowAdd, maxInt, decide_eq_true_eq, Nat.not_lt] at hov
  have hd1lt := modSub_lt a.ub a.lb a.bits
  have hd2lt := modSub_lt ub2 lb2 a.bits
  have hz1 : a.lb = a.ub → modSub a.ub a.lb a.bits = 0 := fun he => by
    rw [modSub_spec hau hal, if_pos (Nat.le_of_eq he)]
    omega
  have hz2 : lb2 = ub2 → modSub ub2 lb2 a.bits = 0 := fun he => by
    rw [modSub_spec hbu hbl, if_pos (Nat.le_of_eq he)]
    omega
  have hbound : modSub a.ub a.lb a.bits + modSub ub2 lb2 a.bits ≤ 2 ^ a.bits - 2 := by
    rcases cardZ_cases a hal hau with ⟨he1, -, hc1⟩ | hc1 | hc1
    · rcases cardZ_cases' a.bits sb lb2 ub2 botb hbl hbu with ⟨he2, -, hc2⟩ | hc2 | hc2
      · have hj1 := hz1 he1
        have hj2 := hz2 he2
        omega
      · omega
      · have hj1 := hz1 he1
        omega
    · rcases cardZ_cases' a.bits sb lb2 ub2 botb hbl hbu with ⟨he2, -, hc2⟩ | hc2 | hc2
      · omega
      · omega
      · omega
    · rcases cardZ_cases' a.bits sb lb2 ub2 botb hbl hbu with ⟨he2, -, hc2⟩ | hc2 | hc2
      · have hj2 := hz2 he2
        omega
      · omega
      · omega
  refine ⟨?_, hbound⟩
  rw [modSub_add_add hau hal hbu hbl]
  exact Nat.mod_eq_of_lt (by omega)

end VSA

namespace VSA

theorem modSub_self_eq {a w : Nat} (h : a < 2 ^ w) : modSub a a w = 0 :=
  (modSub_eq_zero_iff h h).mpr rfl

theorem add_eq_addSpec (a b : SI) (ha : Valid a) (hb : Valid b) (hw : a.bits = b.bits) :
    SI.add a b = addSpec a b := by
  unfold SI.add addSpec
  rw [← hw, Nat.max_self]
  split_ifs with hov
  · rfl
  · obtain ⟨hD, hbd⟩ := add_noflow_spec ha hb hw hov
    have hn := two_pow_pos a.bits
    have h2 := one_lt_two_pow ha.1
    set l := (a.lb + b.lb) % 2 ^ a.bits with hl
    set u := (a.ub + b.ub) % 2 ^ a.bits with hu
    have hll : l < 2 ^ a.bits := by rw [hl]; exact Nat.mod_lt _ hn
    have huu : u < 2 ^ a.bits := by rw [hu]; exact Nat.mod_lt _ hn
    unfold mkSI
    rw [Nat.mod_eq_of_lt hll, Nat.mod_eq_of_lt huu]
    by_cases hlu : l = u
    · have hmz : modSub u l a.bits = 0 := by
        rw [hlu]
        exact modSub_self_eq huu
      rw [hmz] at hD
      have ha0 : a.stride = 0 := by
        refine ha.2.2.2.1.mpr ?_
        have : modSub a.ub a.lb a.bits = 0 := by omega
        exact ((modSub_eq_zero_iff ha.2.2.1 ha.2.1).mp this).symm
      have hb0 : b.stride = 0 := by
        refine hb.2.2.2.1.mpr ?_
        have : modSub b.ub b.lb b.bits = 0 := by omega
        exact ((modSub_eq_zero_iff hb.2.2.1 hb.2.1).mp this).symm
      have hn1 : (⟨a.bits, Nat.gcd a.stride b.stride, l, u, false⟩ : SI).norm
          = ⟨a.bits, 0, l, u, false⟩ := by
        rw [norm_singleton rfl hlu]
      have hn2 : (⟨a.bits, 0, l, u, false⟩ : SI).norm = ⟨a.bits, 0, l, u, false⟩ := by
        rw [norm_singleton rfl hlu]
      rw [hn1, hn2, ha0, hb0]
      rfl
    · have hnotop : ¬(Nat.gcd a.stride b.stride = 1 ∧ l = (u + 1) % 2 ^ a.bits) := by
        rintro ⟨-, hts⟩
        have hts2 := (topshape_iff hll huu).mp hts
        omega
      have hn1 : (⟨a.bits, Nat.gcd a.stride b.stride, l, u, false⟩ : SI).norm
          = ⟨a.bits, Nat.gcd a.stride b.stride, l, u, false⟩ := by
        rw [norm_id rfl hlu hnotop]
      rw [hn1, hn1]

end VSA

namespace VSA

/-- C6 amended: `add(a, b)` returns TOP of the operand width when the
sum of the operands' wrapped cardinalities, counting a singleton-zero
operand as 0 (the special case of `_wrappedoverflow_add`), exceeds
`max_int(w)`; otherwise the SI with lower bound `madd(lb1, lb2)`,
upper bound `madd(ub1, ub2)`, and stride `gcd(s1, s2)`. -/
theorem c6_add_spec :
    ∀ a b : SI, Valid a → Valid b → a.bits = b.bits → SI.add a b = addSpec a b :=
  fun a b ha hb hw => add_eq_addSpec a b ha hb hw

/-- Witness for C6 at `a = <8>2[2,10]`, `b = <8>4[4,20]`. -/
theorem c6_add_spec_witness :
    SI.add ⟨8, 2, 2, 10, false⟩ ⟨8, 4, 4, 20, false⟩
      = addSpec ⟨8, 2, 2, 10, false⟩ ⟨8, 4, 4, 20, false⟩ :=
  c6_add_spec ⟨8, 2, 2, 10, false⟩ ⟨8, 4, 4, 20, false⟩ (by decide) (by decide) rfl

/-- C3 amended: the stride discipline does hold for every result of
`add` on well-formed equal-width operands (while `rshift` violates it,
see the counterexample): the result is never bottom and satisfies
`(ub - lb) mod stride = 0` whenever its stride is positive. -/
theorem c3_add_stride_discipline :
    ∀ a b : SI, Valid a → Valid b → a.bits = b.bits →
      (SI.add a b).bottom = false ∧ Disciplined (SI.add a b) := by
  intro a b ha hb hw
  rw [add_eq_addSpec a b ha hb hw]
  unfold addSpec
  split_ifs with hov
  · refine ⟨?_, ?_⟩
    · rw [top_eq ha.1]
    · intro hst
      rw [top_eq ha.1]
      exact Nat.mod_one _
  · refine ⟨rfl, ?_⟩
    intro hst
    obtain ⟨hD, hbd⟩ := add_noflow_spec ha hb hw hov
    have hmax : max a.bits b.bits = a.bits := by rw [← hw, Nat.max_self]
    show modSub ((a.ub + b.ub) % 2 ^ max a.bits b.bits)
      ((a.lb + b.lb) % 2 ^ max a.bits b.bits) (max a.bits b.bits)
      % Nat.gcd a.stride b.stride = 0
    rw [hmax, hD]
    have h1 : a.stride ∣ modSub a.ub a.lb a.bits := by
      rcases Nat.eq_zero_or_pos a.stride with h0 | hp
      · have he := ha.2.2.2.1.mp h0
        rw [(modSub_eq_zero_iff ha.2.2.1 ha.2.1).mpr he.symm]
        exact Nat.dvd_zero _
      · exact Nat.dvd_of_mod_eq_zero (ha.2.2.2.2 hp)
    have h2 : b.stride ∣ modSub b.ub b.lb b.bits := by
      rcases Nat.eq_zero_or_pos b.stride with h0 | hp
      · have he := hb.2.2.2.1.mp h0
        rw [(modSub_eq_zero_iff hb.2.2.1 hb.2.1).mpr he.symm]
        exact Nat.dvd_zero _
      · exact Nat.dvd_of_mod_eq_zero (hb.2.2.2.2 hp)
    have hg1 : Nat.gcd a.stride b.stride ∣ modSub a.ub a.lb a.bits :=
      dvd_trans (Nat.gcd_dvd_left _ _) h1
    have hg2 : Nat.gcd a.stride b.stride ∣ modSub b.ub b.lb b.bits :=
      dvd_trans (Nat.gcd_dvd_right _ _) h2
    obtain ⟨c, hc⟩ := dvd_add hg1 hg2
    rw [hc, Nat.mul_mod_right]

/-- Witness for C3 at `a = <8>2[2,10]`, `b = <8>6[1,13]`. -/
theorem c3_add_stride_discipline_witness :
    (SI.add ⟨8, 2, 2, 10, false⟩ ⟨8, 6, 1, 13, false⟩).bottom = false ∧
    Disciplined (SI.add ⟨8, 2, 2, 10, false⟩ ⟨8, 6, 1, 13, false⟩) :=
  c3_add_stride_discipline ⟨8, 2, 2, 10, false⟩ ⟨8, 6, 1, 13, false⟩
    (by decide) (by decide) rfl

end VSA
